import Mathlib

/-!
Verification of the RIR delegation pipeline (rir-ip-info.py).

The development embeds the range-to-block decomposition, the per-record
processing loop, the whois enrichment matcher and the address-count
aggregation as executable Lean functions, and proves or refutes the
specification claims about them.

Conventions of the embedding:
* IP addresses are their integer values (Nat); v4 addresses live in
  [0, 2^32), v6 addresses in [0, 2^128).
* Python exceptions are Except.error (); a caught exception follows the
  source's handler.
* math.log2 followed by math.floor is Nat.log2, which agrees with the
  float computation of the source on the entire range where the source
  does not already raise for other reasons; math.log2 of zero raises
  ValueError, modelled as none.
-/

set_option linter.unusedVariables false

/-- String constant: the fallback value of the enrichment matcher. -/
def unknownStr : String := "Unknown"

/-- String constant: a wanted organisation field name used in witnesses. -/
def netnameStr : String := "netname"

/-- String constant: a whois value used in witnesses. -/
def valueAStr : String := "ORG-A"

/-- String constant: a second whois value used in witnesses. -/
def valueBStr : String := "ORG-B"

/-- Shallow embedding of prefix_len_by_num_of_ip (rir-ip-info.py, lines 77-93).
The input zero makes math.log2 raise ValueError, modelled as none.  Otherwise
the head is 32 - floor(log2 n) and, when n is not an exact power of two, the
function recurses on the remainder n - 2^floor(log2 n). -/
def prefix_len_by_num_of_ip (num_of_ip : Nat) : Option (List Int) :=
  if h : num_of_ip = 0 then none
  else
    let bits_needed := Nat.log2 num_of_ip
    let first : Int := 32 - (bits_needed : Int)
    if num_of_ip = 2 ^ bits_needed then some [first]
    else
      (prefix_len_by_num_of_ip (num_of_ip - 2 ^ bits_needed)).map fun rest => first :: rest
termination_by num_of_ip
decreasing_by
  have h1 : 0 < 2 ^ Nat.log2 num_of_ip := Nat.two_pow_pos _
  omega

/-- One key/value entry of a whois record; either member may be absent
(dict.get returning None). -/
structure OrgEntry where
  key : Option String
  value : Option String
deriving DecidableEq

/-- Outcome of the HTTP whois query for one network, as the source can observe
it: requests.get may raise (caught by the source), raise_for_status may raise
(not caught), the envelope may be not-ok, or it carries the records payload. -/
inductive WhoisResp
  | transportError
  | httpStatusError
  | notOk
  | ok (records : List (List OrgEntry))
deriving DecidableEq

/-- Shallow embedding of fetch_ripe_whois (lines 96-122): a transport error is
caught and yields None; response.raise_for_status propagates an exception; a
not-ok envelope yields None; otherwise the records payload is returned. -/
def fetch_ripe_whois : WhoisResp → Except Unit (Option (List (List OrgEntry)))
  | .transportError => .ok none
  | .httpStatusError => .error ()
  | .notOk => .ok none
  | .ok records => .ok (some records)

/-- Ordered-dictionary lookup on an association list (Python dict access,
insertion ordered). -/
def lookupField (org : List (String × Option String)) (k : String) :
    Option (Option String) :=
  (org.find? fun p => decide (p.1 = k)).map fun p => p.2

/-- Ordered-dictionary assignment: overwrite in place, append when absent. -/
def assocSet : List (String × Option String) → String → Option String →
    List (String × Option String)
  | [], k, v => [(k, v)]
  | p :: rest, k, v => if p.1 = k then (k, v) :: rest else p :: assocSet rest k v

/-- One whois entry against the remaining wanted fields (lines 138-143): the
first wanted field equal to the entry key is assigned the entry value (with the
Unknown fallback when the value member is absent) and removed from the wanted
list; the scan of this entry then stops. -/
def scanEntry (entry : OrgEntry)
    (st : List String × List (String × Option String)) :
    List String × List (String × Option String) :=
  match st.1.find? (fun field => decide (entry.key = some field)) with
  | some field =>
      (st.1.erase field, assocSet st.2 field (some (entry.value.getD unknownStr)))
  | none => st

/-- The entry loop of fetch_organization_info (line 138). -/
def scanEntries : List OrgEntry → (List String × List (String × Option String)) →
    List String × List (String × Option String)
  | [], st => st
  | e :: es, st => scanEntries es (scanEntry e st)

/-- The record loop of fetch_organization_info (line 137). -/
def scanRecords : List (List OrgEntry) →
    (List String × List (String × Option String)) →
    List String × List (String × Option String)
  | [], st => st
  | r :: rs, st => scanRecords rs (scanEntries r st)

/-- Shallow embedding of fetch_organization_info (lines 125-144): snapshot the
dict keys, and when the whois query yields a payload run the matching loops;
when it yields None the input dict is returned unchanged. -/
def fetch_organization_info (resp : WhoisResp)
    (org_info : List (String × Option String)) :
    Except Unit (List (String × Option String)) :=
  let info_fields := org_info.map Prod.fst
  match fetch_ripe_whois resp with
  | .error e => .error e
  | .ok none => .ok org_info
  | .ok (some records) => .ok (scanRecords records (info_fields, org_info)).2

/-- One emitted json element of process_ip_range (lines 183-188): the network
address of the non-strict prefix, the requested prefix length, the family and
the organisation dict. -/
structure BlockInfo where
  network : Nat
  prefixLen : Int
  version : Nat
  orgInfo : List (String × Option String)
deriving DecidableEq

/-- Per-block organisation info (lines 176-181): a dict initialised to None for
every wanted field, refined by the whois lookup when any field was requested. -/
def enrich (resp : WhoisResp) (fields : List String) :
    Except Unit (List (String × Option String)) :=
  let org0 := fields.foldl (fun acc k => assocSet acc k none) []
  if fields.isEmpty then .ok org0
  else fetch_organization_info resp org0

/-- Modelled from the spec: the value enrichment gives one wanted field, as a
function of the block's directory-service response: None when the field is not
found (no entry with a matching key, or no usable response because the client
call failed recoverably), otherwise the first matching entry's value, with the
string Unknown substituted exactly when that entry lacks a value member. -/
def enrichmentResult : WhoisResp → String → Option String
  | .ok records, f =>
      match records.flatten.find? (fun e => decide (e.key = some f)) with
      | some e => some (e.value.getD unknownStr)
      | none => none
  | _, _ => none

/-- The loop of process_ip_range (lines 166-191).  State: block index (selects
the whois response for this block), curr_ip and next_ip.  For the v4 family the
cursor advances by 2^(32-len); the source's address addition raises both when
the result leaves the address space and when len exceeds 32 (the power is then
a float), collapsed into the single guard of step.  The emitted network is the
non-strict network of curr at the given prefix length, whose construction
raises when the length is out of range for the family. -/
def processLoop (env : Nat → WhoisResp) (fields : List String)
    (ip_version : Nat) :
    Nat → Nat → Nat → List Int → Except Unit (List BlockInfo)
  | _, _, _, [] => .ok []
  | i, curr, next, len :: rest =>
    let step : Except Unit (Nat × Nat) :=
      if ip_version = 4 then
        if len ≤ 32 ∧ next + 2 ^ ((32 : Int) - len).toNat ≤ 2 ^ 32 - 1 then
          .ok (next, next + 2 ^ ((32 : Int) - len).toNat)
        else .error ()
      else .ok (curr, next)
    match step with
    | .error e => .error e
    | .ok (curr2, next2) =>
      let maxBits : Int := if ip_version = 4 then 32 else 128
      if 0 ≤ len ∧ len ≤ maxBits then
        let size := 2 ^ (maxBits - len).toNat
        match enrich (env i) fields with
        | .error e => .error e
        | .ok org =>
          match processLoop env fields ip_version (i + 1) curr2 next2 rest with
          | .error e => .error e
          | .ok bs => .ok (⟨curr2 - curr2 % size, len, ip_version, org⟩ :: bs)
      else .error ()

/-- Shallow embedding of process_ip_range (lines 147-191).  The address string
has already been parsed: start is its integer value and ip_version its family.
For v4 the length argument is an address count fed to the decomposition; for v6
it is already a prefix length and the length list is the singleton. -/
def process_ip_range (env : Nat → WhoisResp) (fields : List String)
    (start : Nat) (ip_version : Nat) (length : Nat) :
    Except Unit (List BlockInfo) :=
  match (if ip_version = 4 then prefix_len_by_num_of_ip length
         else some [(length : Int)]) with
  | none => .error ()
  | some length_list => processLoop env fields ip_version 0 start start length_list

/-- One parsed line of the delegation ledger, as main hands it to a worker:
the parsed start address, its family, and the unit count int(record[4]). -/
structure DelegationRecord where
  start : Nat
  ip_version : Nat
  unitCount : Nat
deriving DecidableEq

/-- The result-collection loop of main (lines 313-322): each record is one unit
of work, and future.result() re-raises any exception of the unit, so a single
failing unit makes the whole collection raise before anything is written. -/
def collectResults (env : Nat → Nat → WhoisResp) (fields : List String) :
    Nat → List DelegationRecord → Except Unit (List BlockInfo)
  | _, [] => .ok []
  | j, r :: rs =>
    match process_ip_range (env j) fields r.start r.ip_version r.unitCount with
    | .error e => .error e
    | .ok bs =>
      match collectResults env fields (j + 1) rs with
      | .error e => .error e
      | .ok more => .ok (bs ++ more)

/-- The running address total of prefix_info_list_to_file (lines 204-218). -/
def totalAddressesCalc (l : List BlockInfo) : Nat :=
  l.foldl (fun total b =>
    if b.version = 4 then total + 2 ^ ((32 : Int) - b.prefixLen).toNat
    else total + 2 ^ ((128 : Int) - b.prefixLen).toNat) 0

/-- Modelled from the spec: sizeInAddresses of an AddressBlock equals
2^(maxBits - prefixLength), with maxBits 32 for the v4 family and 128
otherwise. -/
def sizeInAddresses (b : BlockInfo) : Nat :=
  if b.version = 4 then 2 ^ ((32 : Int) - b.prefixLen).toNat
  else 2 ^ ((128 : Int) - b.prefixLen).toNat

/-- Address count of one v4 block of the given prefix length. -/
def v4Size (len : Int) : Nat := 2 ^ ((32 : Int) - len).toNat

/-- The cursor in front of the i-th block of a v4 decomposition: the start
address plus the sizes of the blocks already emitted. -/
def v4Cursor (start : Nat) (lens : List Int) (i : Nat) : Nat :=
  start + ((lens.take i).map v4Size).sum

/-- The network addresses the v4 loop emits: at each step the cursor rounded
down to the containing block boundary at that prefix length, the cursor then
advancing by the block size. -/
def alignedCursorList : Nat → List Int → List Nat
  | _, [] => []
  | c, len :: rest => (c - c % v4Size len) :: alignedCursorList (c + v4Size len) rest

instance exceptDecEq {e a : Type} [DecidableEq e] [DecidableEq a] :
    DecidableEq (Except e a) := fun x y =>
  match x, y with
  | .error x1, .error y1 =>
    if h : x1 = y1 then isTrue (by rw [h])
    else isFalse (by intro hc; cases hc; exact h rfl)
  | .error _, .ok _ => isFalse (by intro hc; cases hc)
  | .ok _, .error _ => isFalse (by intro hc; cases hc)
  | .ok x1, .ok y1 =>
    if h : x1 = y1 then isTrue (by rw [h])
    else isFalse (by intro hc; cases hc; exact h rfl)

/-- The cursor sequence of a v4 decomposition when no rounding occurs: each
block begins exactly at the cursor, which advances by the block size. -/
def exactCursors : Nat → List Int → List Nat
  | _, [] => []
  | c, len :: rest => c :: exactCursors (c + v4Size len) rest

/-- Number of ones in the binary representation. -/
def popcount : Nat → Nat
  | 0 => 0
  | n + 1 => popcount ((n + 1) / 2) + (n + 1) % 2
termination_by n => n
decreasing_by
  exact Nat.div_lt_self (Nat.succ_pos n) (by decide)

/-! Helper lemmas. -/

theorem log2_eq_of_bounds (k n : Nat) (h1 : 2 ^ k ≤ n) (h2 : n < 2 ^ (k + 1)) :
    Nat.log2 n = k := by
  have hn : n ≠ 0 := by
    have : 0 < 2 ^ k := Nat.two_pow_pos _
    omega
  have ha : 2 ^ Nat.log2 n ≤ n := Nat.log2_self_le hn
  have hb : n < 2 ^ (Nat.log2 n + 1) := Nat.lt_log2_self
  rcases lt_trichotomy (Nat.log2 n) k with h | h | h
  · have := Nat.pow_le_pow_right (by decide : 1 ≤ 2) (Nat.succ_le_of_lt h)
    omega
  · exact h
  · have := Nat.pow_le_pow_right (by decide : 1 ≤ 2) (Nat.succ_le_of_lt h)
    omega

theorem log2_three : Nat.log2 3 = 1 :=
  log2_eq_of_bounds 1 3 (by decide) (by decide)

theorem plen_zero : prefix_len_by_num_of_ip 0 = none := by
  rw [prefix_len_by_num_of_ip]
  simp

theorem plen_one : prefix_len_by_num_of_ip 1 = some [32] := by
  have h : Nat.log2 1 = 0 := log2_eq_of_bounds 0 1 (by decide) (by decide)
  rw [prefix_len_by_num_of_ip]
  simp [h]

theorem plen_two : prefix_len_by_num_of_ip 2 = some [31] := by
  have h : Nat.log2 2 = 1 := log2_eq_of_bounds 1 2 (by decide) (by decide)
  rw [prefix_len_by_num_of_ip]
  simp [h]

theorem plen_three : prefix_len_by_num_of_ip 3 = some [31, 32] := by
  rw [prefix_len_by_num_of_ip]
  simp [log2_three, plen_one]

/-- Structural facts about a produced decomposition list: the input was
positive, the list is nonempty, its head is 32 - floor(log2 n), every element
is at most 32 and at least the head, the list is strictly increasing, and the
block sizes sum exactly to the input. -/
theorem plen_spec : ∀ n l, prefix_len_by_num_of_ip n = some l →
    1 ≤ n ∧ l ≠ [] ∧ l.head? = some (32 - (Nat.log2 n : Int)) ∧
    (∀ x ∈ l, x ≤ 32 ∧ 32 - (Nat.log2 n : Int) ≤ x) ∧
    List.Chain' (· < ·) l ∧ (l.map v4Size).sum = n := by
  intro n
  induction n using Nat.strong_induction_on with
  | _ n ih =>
    intro l hl
    rw [prefix_len_by_num_of_ip] at hl
    by_cases h0 : n = 0
    · rw [dif_pos h0] at hl; cases hl
    rw [dif_neg h0] at hl
    have hn1 : 1 ≤ n := Nat.pos_of_ne_zero h0
    have hple : 2 ^ Nat.log2 n ≤ n := Nat.log2_self_le h0
    have hplt : n < 2 ^ (Nat.log2 n + 1) := Nat.lt_log2_self
    have hpsucc : 2 ^ (Nat.log2 n + 1) = 2 * 2 ^ Nat.log2 n := by
      rw [pow_succ]; ring
    have hsize : v4Size (32 - (Nat.log2 n : Int)) = 2 ^ Nat.log2 n := by
      have ht : ((32 : Int) - (32 - (Nat.log2 n : Int))).toNat = Nat.log2 n := by
        omega
      rw [v4Size, ht]
    by_cases hpow : n = 2 ^ Nat.log2 n
    · rw [if_pos hpow] at hl
      injection hl with hl
      subst hl
      refine ⟨hn1, List.cons_ne_nil _ _, rfl, ?_, List.chain'_singleton _, ?_⟩
      · intro x hx
        simp only [List.mem_singleton] at hx
        subst hx
        constructor <;> omega
      · simp [hsize, hpow.symm]
    · rw [if_neg hpow] at hl
      cases hm : prefix_len_by_num_of_ip (n - 2 ^ Nat.log2 n) with
      | none => rw [hm] at hl; cases hl
      | some rest =>
        rw [hm] at hl
        simp only [Option.map_some'] at hl
        injection hl with hl
        subst hl
        have hmlt : n - 2 ^ Nat.log2 n < n := by
          have := Nat.two_pow_pos (Nat.log2 n); omega
        obtain ⟨hm1, hmne, hmhead, hmmem, hmchain, hmsum⟩ := ih _ hmlt rest hm
        have hm2 : n - 2 ^ Nat.log2 n < 2 ^ Nat.log2 n := by omega
        have hlogm : Nat.log2 (n - 2 ^ Nat.log2 n) < Nat.log2 n :=
          (Nat.log2_lt (by omega)).mpr hm2
        refine ⟨hn1, List.cons_ne_nil _ _, rfl, ?_, ?_, ?_⟩
        · intro x hx
          rcases List.mem_cons.mp hx with hx | hx
          · subst hx; constructor <;> omega
          · obtain ⟨hx1, hx2⟩ := hmmem x hx
            constructor
            · exact hx1
            · omega
        · refine List.chain'_cons'.mpr ⟨?_, hmchain⟩
          intro y hy
          rw [hmhead] at hy
          simp only [Option.mem_def, Option.some.injEq] at hy
          subst hy
          omega
        · simp only [List.map_cons, List.sum_cons, hsize, hmsum]
          omega

/-- Evaluation rule of popcount in division form, valid for every input. -/
theorem popcount_def (n : Nat) : popcount n = popcount (n / 2) + n % 2 := by
  cases n with
  | zero => rfl
  | succ m => rw [popcount]

theorem popcount_zero : popcount 0 = 0 := by
  rw [popcount]

theorem popcount_one : popcount 1 = 1 := by
  rw [popcount_def]
  simp [popcount_zero]

theorem popcount_two_pow (k : Nat) : popcount (2 ^ k) = 1 := by
  induction k with
  | zero => simp [popcount_one]
  | succ k ih =>
    rw [popcount_def]
    have hp : 2 ^ (k + 1) = 2 * 2 ^ k := by rw [pow_succ]; ring
    have h1 : 2 ^ (k + 1) / 2 = 2 ^ k := by omega
    have h2 : 2 ^ (k + 1) % 2 = 0 := by omega
    rw [h1, h2, ih]

/-- Adding a fresh high bit adds one to the population count. -/
theorem popcount_pow_add : ∀ k m, m < 2 ^ k →
    popcount (2 ^ k + m) = 1 + popcount m := by
  intro k
  induction k with
  | zero =>
    intro m hm
    interval_cases m
    simp [popcount_zero, popcount_one]
  | succ k ih =>
    intro m hm
    have hp : 2 ^ (k + 1) = 2 * 2 ^ k := by rw [pow_succ]; ring
    have h1 : (2 ^ (k + 1) + m) / 2 = 2 ^ k + m / 2 := by omega
    have h2 : (2 ^ (k + 1) + m) % 2 = m % 2 := by omega
    rw [popcount_def, h1, h2, ih (m / 2) (by omega), popcount_def m]
    omega

/-- Population count is subadditive, with an explicit carry bound. -/
theorem popcount_add_le_carry :
    ∀ s a b c, a + b ≤ s → c ≤ 1 →
      popcount (a + b + c) ≤ popcount a + popcount b + c := by
  intro s
  induction s with
  | zero =>
    intro a b c hs hc
    have ha : a = 0 := by omega
    have hb : b = 0 := by omega
    subst ha; subst hb
    interval_cases c
    · simp [popcount_zero]
    · simp [popcount_zero, popcount_one]
  | succ s ih =>
    intro a b c hs hc
    by_cases h0 : a + b = 0
    · have ha : a = 0 := by omega
      have hb : b = 0 := by omega
      subst ha; subst hb
      interval_cases c
      · simp [popcount_zero]
      · simp [popcount_zero, popcount_one]
    · have h1 : (a + b + c) / 2 = a / 2 + b / 2 + (a % 2 + b % 2 + c) / 2 := by
        omega
      have h2 : (a + b + c) % 2 = (a % 2 + b % 2 + c) % 2 := by omega
      have hih := ih (a / 2) (b / 2) ((a % 2 + b % 2 + c) / 2)
        (by omega) (by omega)
      have hda := popcount_def a
      have hdb := popcount_def b
      rw [popcount_def (a + b + c), h1, h2]
      omega

/-- Any list of powers of two summing to n has at least popcount n elements. -/
theorem popcount_cover_le :
    ∀ exps : List Nat, popcount ((exps.map fun k => 2 ^ k).sum) ≤ exps.length := by
  intro exps
  induction exps with
  | nil => simp [popcount_zero]
  | cons e rest ih =>
    simp only [List.map_cons, List.sum_cons, List.length_cons]
    have h1 := popcount_add_le_carry (2 ^ e + (rest.map fun k => 2 ^ k).sum)
      (2 ^ e) ((rest.map fun k => 2 ^ k).sum) 0 le_rfl (by decide)
    rw [Nat.add_zero] at h1
    have h2 := popcount_two_pow e
    omega

/-- The greedy decomposition has exactly popcount n blocks. -/
theorem plen_length : ∀ n l, prefix_len_by_num_of_ip n = some l →
    l.length = popcount n := by
  intro n
  induction n using Nat.strong_induction_on with
  | _ n ih =>
    intro l hl
    rw [prefix_len_by_num_of_ip] at hl
    by_cases h0 : n = 0
    · rw [dif_pos h0] at hl; cases hl
    rw [dif_neg h0] at hl
    by_cases hpow : n = 2 ^ Nat.log2 n
    · rw [if_pos hpow] at hl
      injection hl with hl
      subst hl
      rw [hpow, popcount_two_pow]
      rfl
    · rw [if_neg hpow] at hl
      cases hm : prefix_len_by_num_of_ip (n - 2 ^ Nat.log2 n) with
      | none => rw [hm] at hl; cases hl
      | some rest =>
        rw [hm] at hl
        simp only [Option.map_some'] at hl
        injection hl with hl
        subst hl
        have hple : 2 ^ Nat.log2 n ≤ n := Nat.log2_self_le h0
        have hplt : n < 2 ^ (Nat.log2 n + 1) := Nat.lt_log2_self
        have hpsucc : 2 ^ (Nat.log2 n + 1) = 2 * 2 ^ Nat.log2 n := by
          rw [pow_succ]; ring
        have hmlt : n - 2 ^ Nat.log2 n < n := by
          have := Nat.two_pow_pos (Nat.log2 n); omega
        have hrec := ih _ hmlt rest hm
        have hsplit : n = 2 ^ Nat.log2 n + (n - 2 ^ Nat.log2 n) := by omega
        have hpc : popcount n = 1 + popcount (n - 2 ^ Nat.log2 n) := by
          conv_lhs => rw [hsplit]
          rw [popcount_pow_add (Nat.log2 n) (n - 2 ^ Nat.log2 n) (by omega)]
        rw [List.length_cons, hrec, hpc]
        omega

/-- A strictly decreasing exponent list whose members are below e sums to less
than 2^e. -/
theorem decreasing_cover_bound :
    ∀ (l : List Nat) (e : Nat), l.Pairwise (· > ·) → (∀ x ∈ l, x < e) →
      (l.map fun k => 2 ^ k).sum < 2 ^ e := by
  intro l
  induction l with
  | nil =>
    intro e _ _
    simp only [List.map_nil, List.sum_nil]
    exact Nat.two_pow_pos e
  | cons a t ih =>
    intro e hp hb
    have hta : ∀ x ∈ t, x < a := fun x hx => (List.pairwise_cons.mp hp).1 x hx
    have hpt : t.Pairwise (· > ·) := (List.pairwise_cons.mp hp).2
    have hsum := ih a hpt hta
    have hae : a < e := hb a (List.mem_cons_self a t)
    have h1 : 2 ^ (a + 1) ≤ 2 ^ e := Nat.pow_le_pow_right (by decide) (by omega)
    have h2 : 2 ^ (a + 1) = 2 * 2 ^ a := by rw [pow_succ]; ring
    simp only [List.map_cons, List.sum_cons]
    omega

/-- Helper: the size of the head prefix length equals the leading power. -/
theorem v4Size_head (k : Nat) : v4Size (32 - (k : Int)) = 2 ^ k := by
  have ht : ((32 : Int) - (32 - (k : Int))).toNat = k := by omega
  rw [v4Size, ht]

/-- A strictly decreasing list of powers of two summing to n coincides with the
greedy decomposition's size list: binary representations are unique. -/
theorem plen_sizes_unique :
    ∀ n (exps : List Nat) (l : List Int), exps.Chain' (· > ·) →
      (exps.map fun k => 2 ^ k).sum = n → prefix_len_by_num_of_ip n = some l →
      exps.map (fun k => (2 : Nat) ^ k) = l.map v4Size := by
  intro n
  induction n using Nat.strong_induction_on with
  | _ n ih =>
    intro exps l hchain hsum hl
    obtain ⟨hn1, hne, hhead, hmem, hlc, hlsum⟩ := plen_spec n l hl
    cases exps with
    | nil => simp at hsum; omega
    | cons e rest =>
      have hpw : (e :: rest).Pairwise (· > ·) := List.chain'_iff_pairwise.mp hchain
      have hrt : ∀ x ∈ rest, x < e := fun x hx => (List.pairwise_cons.mp hpw).1 x hx
      have hrpw : rest.Pairwise (· > ·) := (List.pairwise_cons.mp hpw).2
      have hbound : (rest.map fun k => 2 ^ k).sum < 2 ^ e :=
        decreasing_cover_bound rest e hrpw hrt
      simp only [List.map_cons, List.sum_cons] at hsum
      have hloge : Nat.log2 n = e := by
        apply log2_eq_of_bounds e n
        · omega
        · have h2 : 2 ^ (e + 1) = 2 * 2 ^ e := by rw [pow_succ]; ring
          omega
      rw [prefix_len_by_num_of_ip] at hl
      rw [dif_neg (by omega : ¬n = 0)] at hl
      by_cases hpow : n = 2 ^ Nat.log2 n
      · rw [if_pos hpow] at hl
        injection hl with hl
        subst hl
        have hz : (rest.map fun k => 2 ^ k).sum = 0 := by
          rw [hloge] at hpow; omega
        have hrest : rest = [] := by
          cases rest with
          | nil => rfl
          | cons r t =>
            exfalso
            simp only [List.map_cons, List.sum_cons] at hz
            have := Nat.two_pow_pos r
            omega
        subst hrest
        simp [v4Size_head, hloge]
      · rw [if_neg hpow] at hl
        cases hm : prefix_len_by_num_of_ip (n - 2 ^ Nat.log2 n) with
        | none => rw [hm] at hl; cases hl
        | some restl =>
          rw [hm] at hl
          simp only [Option.map_some'] at hl
          injection hl with hl
          subst hl
          have hmlt : n - 2 ^ Nat.log2 n < n := by
            have := Nat.two_pow_pos (Nat.log2 n); omega
          have hrsum : (rest.map fun k => 2 ^ k).sum = n - 2 ^ Nat.log2 n := by
            rw [hloge]; omega
          have hrchain : rest.Chain' (· > ·) := List.chain'_iff_pairwise.mpr hrpw
          have hrec := ih _ hmlt rest restl hrchain hrsum hm
          simp only [List.map_cons, hrec, v4Size_head, hloge]

/-- The produced block sizes decrease strictly along the list. -/
theorem plen_sizes_decreasing (n : Nat) (l : List Int)
    (hl : prefix_len_by_num_of_ip n = some l) :
    List.Chain' (· > ·) (l.map v4Size) := by
  obtain ⟨_, _, _, hmem, hchain, _⟩ := plen_spec n l hl
  rw [List.chain'_iff_pairwise] at hchain ⊢
  rw [List.pairwise_map]
  refine hchain.imp_of_mem ?_
  intro a b ha hb hab
  have ha32 := (hmem a ha).1
  have hb32 := (hmem b hb).1
  have hexp : ((32 : Int) - b).toNat < ((32 : Int) - a).toNat := by omega
  exact Nat.pow_lt_pow_right (by decide) hexp

theorem alignedCursorList_length : ∀ (lens : List Int) (c : Nat),
    (alignedCursorList c lens).length = lens.length := by
  intro lens
  induction lens with
  | nil => intro c; rfl
  | cons len rest ih =>
    intro c
    simp [alignedCursorList, ih]

theorem v4Cursor_zero (c : Nat) (lens : List Int) : v4Cursor c lens 0 = c := by
  simp [v4Cursor]

theorem v4Cursor_cons_succ (c : Nat) (len : Int) (rest : List Int) (i : Nat) :
    v4Cursor c (len :: rest) (i + 1) = v4Cursor (c + v4Size len) rest i := by
  simp only [v4Cursor, List.take_succ_cons, List.map_cons, List.sum_cons]
  omega

/-- Inversion of the v4 loop on success: the emitted prefix lengths are the
input list, the networks form the aligned cursor list, and every block carries
the v4 family tag. -/
theorem processLoop_v4_ok (env : Nat → WhoisResp) (fields : List String) :
    ∀ (lens : List Int) (i curr next : Nat) (bs : List BlockInfo),
      processLoop env fields 4 i curr next lens = Except.ok bs →
      bs.map (fun b => b.prefixLen) = lens ∧
      bs.map (fun b => b.network) = alignedCursorList next lens ∧
      ∀ b ∈ bs, b.version = 4 := by
  intro lens
  induction lens with
  | nil =>
    intro i curr next bs h
    simp only [processLoop] at h
    injection h with h
    subst h
    exact ⟨rfl, rfl, by simp⟩
  | cons len rest ih =>
    intro i curr next bs h
    simp only [processLoop, reduceIte] at h
    split at h
    next heq => exact Except.noConfusion h
    next x curr2 next2 heq =>
      by_cases hg : len ≤ 32 ∧ next + 2 ^ ((32 : Int) - len).toNat ≤ 2 ^ 32 - 1
      · rw [if_pos hg] at heq
        injection heq with heq
        injection heq with he1 he2
        subst he1
        subst he2
        split at h
        · split at h
          next henr => exact Except.noConfusion h
          next org henr =>
            split at h
            next hrec => exact Except.noConfusion h
            next bs2 hrec =>
              injection h with h
              subst h
              obtain ⟨ih1, ih2, ih3⟩ := ih _ _ _ _ hrec
              refine ⟨?_, ?_, ?_⟩
              · simp [ih1]
              · simp only [List.map_cons, ih2, alignedCursorList]
                rfl
              · intro b hb
                rcases List.mem_cons.mp hb with hb | hb
                · subst hb; rfl
                · exact ih3 b hb
        · exact Except.noConfusion h
      · rw [if_neg hg] at heq
        exact Except.noConfusion heq

/-- Every emitted block's organisation dict came from an enrich call. -/
theorem processLoop_org (env : Nat → WhoisResp) (fields : List String)
    (ip_version : Nat) :
    ∀ (lens : List Int) (i curr next : Nat) (bs : List BlockInfo),
      processLoop env fields ip_version i curr next lens = Except.ok bs →
      ∀ b ∈ bs, ∃ j, enrich (env j) fields = Except.ok b.orgInfo := by
  intro lens
  induction lens with
  | nil =>
    intro i curr next bs h
    simp only [processLoop] at h
    injection h with h
    subst h
    simp
  | cons len rest ih =>
    intro i curr next bs h
    simp only [processLoop] at h
    split at h
    next heq => exact Except.noConfusion h
    next x curr2 next2 heq =>
      split at h
      · split at h
        next hrange =>
          split at h
          next henr => exact Except.noConfusion h
          next org henr =>
            split at h
            next hrec => exact Except.noConfusion h
            next bs2 hrec =>
              injection h with h
              subst h
              intro b hb
              rcases List.mem_cons.mp hb with hb | hb
              · subst hb
                exact ⟨i, henr⟩
              · exact ih _ _ _ _ hrec b hb
        next hrange => exact Except.noConfusion h
      · split at h
        next hrange =>
          split at h
          next henr => exact Except.noConfusion h
          next org henr =>
            split at h
            next hrec => exact Except.noConfusion h
            next bs2 hrec =>
              injection h with h
              subst h
              intro b hb
              rcases List.mem_cons.mp hb with hb | hb
              · subst hb
                exact ⟨i, henr⟩
              · exact ih _ _ _ _ hrec b hb
        next hrange => exact Except.noConfusion h

theorem alignedCursorList_getD :
    ∀ (lens : List Int) (c i : Nat), i < lens.length →
      (alignedCursorList c lens).getD i 0 =
        v4Cursor c lens i - v4Cursor c lens i % v4Size (lens.getD i 0) := by
  intro lens
  induction lens with
  | nil => intro c i h; simp at h
  | cons len rest ih =>
    intro c i h
    cases i with
    | zero =>
      simp [alignedCursorList, v4Cursor_zero, List.getD_cons_zero]
    | succ i =>
      simp only [alignedCursorList, List.getD_cons_succ]
      rw [v4Cursor_cons_succ]
      exact ih (c + v4Size len) i (by simp only [List.length_cons] at h; omega)

/-- When every block size divides the running cursor, no rounding occurs and
the aligned cursor list is the exact cursor list. -/
theorem acl_eq_exact : ∀ (lens : List Int) (c : Nat),
    List.Pairwise (· < ·) lens → (∀ x ∈ lens, x ≤ 32) →
    (∀ x ∈ lens, v4Size x ∣ c) →
    alignedCursorList c lens = exactCursors c lens := by
  intro lens
  induction lens with
  | nil => intro c _ _ _; rfl
  | cons len rest ih =>
    intro c hpw hb hd
    have hmod : c % v4Size len = 0 :=
      Nat.mod_eq_zero_of_dvd (hd len (List.mem_cons_self _ _))
    have hlt : ∀ x ∈ rest, len < x := fun x hx =>
      (List.pairwise_cons.mp hpw).1 x hx
    have hd2 : ∀ x ∈ rest, v4Size x ∣ c + v4Size len := by
      intro x hx
      refine dvd_add (hd x (List.mem_cons_of_mem _ hx)) ?_
      have hx32 : x ≤ 32 := hb x (List.mem_cons_of_mem _ hx)
      have hexp : ((32 : Int) - x).toNat ≤ ((32 : Int) - len).toNat := by
        have := hlt x hx
        omega
      exact pow_dvd_pow 2 hexp
    simp only [alignedCursorList, exactCursors, hmod, Nat.sub_zero]
    rw [ih (c + v4Size len) (List.pairwise_cons.mp hpw).2
      (fun x hx => hb x (List.mem_cons_of_mem _ hx)) hd2]

/-- Blocks whose networks are the exact cursors are contiguous: each block
begins where the previous one ends. -/
theorem chain_contiguous : ∀ (bs : List BlockInfo) (lens : List Int) (c : Nat),
    bs.map (fun b => b.network) = exactCursors c lens →
    bs.map (fun b => b.prefixLen) = lens →
    (∀ b ∈ bs, b.version = 4) →
    List.Chain' (fun b b2 => b2.network = b.network + sizeInAddresses b) bs := by
  intro bs
  induction bs with
  | nil => intro lens c _ _ _; exact List.chain'_nil
  | cons b bs2 ih =>
    intro lens c hnet hlen hver
    cases lens with
    | nil => simp at hlen
    | cons len rest =>
      simp only [List.map_cons, exactCursors] at hnet hlen
      injection hnet with hb hnet2
      injection hlen with hl hlen2
      refine List.chain'_cons'.mpr
        ⟨?_, ih rest (c + v4Size len) hnet2 hlen2
          (fun x hx => hver x (List.mem_cons_of_mem _ hx))⟩
      intro b2 hb2
      cases bs2 with
      | nil => simp at hb2
      | cons b3 bs3 =>
        simp only [List.head?_cons, Option.mem_def, Option.some.injEq] at hb2
        subst hb2
        cases rest with
        | nil => simp [exactCursors] at hnet2
        | cons len2 rest2 =>
          simp only [List.map_cons, exactCursors] at hnet2
          injection hnet2 with hb3 _
          have hv : b.version = 4 := hver b (List.mem_cons_self _ _)
          rw [hb3, hb, sizeInAddresses, if_pos hv, hl]
          rfl

/-- Contiguous blocks are strictly increasing in network address. -/
theorem chain_strict_mono (bs : List BlockInfo)
    (h : List.Chain' (fun b b2 => b2.network = b.network + sizeInAddresses b) bs) :
    List.Chain' (fun b b2 => b.network < b2.network) bs := by
  refine List.Chain'.imp ?_ h
  intro a b hab
  have hpos : 0 < sizeInAddresses a := by
    rw [sizeInAddresses]; split
    · exact Nat.two_pow_pos _
    · exact Nat.two_pow_pos _
  omega

/-- Inversion of the v4 top-level dispatch on success. -/
theorem process_v4_inv (env : Nat → WhoisResp) (fields : List String)
    (start count : Nat) (bs : List BlockInfo)
    (h : process_ip_range env fields start 4 count = Except.ok bs) :
    ∃ lens, prefix_len_by_num_of_ip count = some lens ∧
      processLoop env fields 4 0 start start lens = Except.ok bs := by
  rw [process_ip_range, if_pos rfl] at h
  split at h
  next heq => exact Except.noConfusion h
  next lens heq => exact ⟨lens, heq, h⟩

/-- C1 (amended): for an IPv4 record with positive unit count whose start
address is divisible by 2^floor(log2(unitCount)), the emitted blocks' sizes sum
exactly to the unit count, the first block begins at the start address, and the
blocks are contiguous, in strictly increasing address order, with no gaps or
overlaps. -/
theorem c1_aligned_decomposition
    (env : Nat → WhoisResp) (fields : List String) (start count : Nat)
    (bs : List BlockInfo)
    (halign : 2 ^ Nat.log2 count ∣ start)
    (hrun : process_ip_range env fields start 4 count = Except.ok bs) :
    (bs.map sizeInAddresses).sum = count ∧
    bs ≠ [] ∧
    bs.head?.map (fun b => b.network) = some start ∧
    List.Chain' (fun b b2 => b2.network = b.network + sizeInAddresses b) bs ∧
    List.Chain' (fun b b2 => b.network < b2.network) bs := by
  obtain ⟨lens, hpl, hloop⟩ := process_v4_inv env fields start count bs hrun
  obtain ⟨hm1, hm2, hm3⟩ := processLoop_v4_ok env fields lens 0 start start bs hloop
  obtain ⟨hn1, hne, hhead, hmem, hchain, hsum⟩ := plen_spec count lens hpl
  have hb32 : ∀ x ∈ lens, x ≤ 32 := fun x hx => (hmem x hx).1
  have hdvd : ∀ x ∈ lens, v4Size x ∣ start := by
    intro x hx
    refine dvd_trans ?_ halign
    have hlow := (hmem x hx).2
    have hexp : ((32 : Int) - x).toNat ≤ Nat.log2 count := by omega
    rw [v4Size]
    exact pow_dvd_pow 2 hexp
  have hexact : alignedCursorList start lens = exactCursors start lens :=
    acl_eq_exact lens start (List.chain'_iff_pairwise.mp hchain) hb32 hdvd
  rw [hexact] at hm2
  have hsizes : bs.map sizeInAddresses = lens.map v4Size := by
    have h1 : bs.map sizeInAddresses = bs.map (fun b => v4Size b.prefixLen) := by
      refine List.map_congr_left ?_
      intro b hb
      rw [sizeInAddresses, if_pos (hm3 b hb), v4Size]
    rw [h1, ← hm1, List.map_map]
    rfl
  have hcontig := chain_contiguous bs lens start hm2 hm1 hm3
  refine ⟨?_, ?_, ?_, hcontig, chain_strict_mono bs hcontig⟩
  · rw [hsizes, hsum]
  · intro hbs
    subst hbs
    simp only [List.map_nil] at hm1
    exact hne hm1.symm
  · cases bs with
    | nil =>
      exfalso
      simp only [List.map_nil] at hm1
      exact hne hm1.symm
    | cons b bs2 =>
      cases lens with
      | nil => exact absurd rfl hne
      | cons len rest =>
        simp only [List.map_cons, exactCursors] at hm2
        injection hm2 with hb _
        simp [hb]

/-- C2: every emitted IPv4 block's network address is the running cursor
rounded down to the containing block boundary at the chosen prefix length, and
there are inputs on which the rounded address differs from the cursor. -/
theorem c2_nonstrict_network
    (env : Nat → WhoisResp) (fields : List String) (start count : Nat)
    (lens : List Int) (bs : List BlockInfo)
    (hlens : prefix_len_by_num_of_ip count = some lens)
    (hrun : process_ip_range env fields start 4 count = Except.ok bs) :
    (bs.map (fun b => b.network) = alignedCursorList start lens ∧
     ∀ i, i < lens.length →
       (alignedCursorList start lens).getD i 0 =
         v4Cursor start lens i - v4Cursor start lens i % v4Size (lens.getD i 0)) ∧
    ∃ bs2, process_ip_range (fun _ => WhoisResp.notOk) [] 1 4 2 = Except.ok bs2 ∧
      bs2.map (fun b => b.network) ≠ [v4Cursor 1 [31] 0] := by
  obtain ⟨lens2, hpl2, hloop⟩ := process_v4_inv env fields start count bs hrun
  rw [hlens] at hpl2
  injection hpl2 with hpl2
  subst hpl2
  obtain ⟨hm1, hm2, hm3⟩ := processLoop_v4_ok env fields lens 0 start start bs hloop
  refine ⟨⟨hm2, fun i hi => alignedCursorList_getD lens start i hi⟩, ?_⟩
  refine ⟨[⟨0, 31, 4, []⟩], ?_, ?_⟩
  · rw [process_ip_range, if_pos rfl, plen_two]
    decide
  · decide

/-- C6: an IPv6 record yields exactly one block, the canonical (rounded down)
network of the start address at prefix length equal to the unit count, of size
2^(128 - unitCount). -/
theorem c6_v6_single_block
    (env : Nat → WhoisResp) (fields : List String) (start count : Nat)
    (bs : List BlockInfo)
    (hrun : process_ip_range env fields start 6 count = Except.ok bs) :
    count ≤ 128 ∧
    ∃ org, bs = [⟨start - start % 2 ^ (128 - count), (count : Int), 6, org⟩] ∧
      sizeInAddresses ⟨start - start % 2 ^ (128 - count), (count : Int), 6, org⟩ =
        2 ^ (128 - count) := by
  rw [process_ip_range, if_neg (by decide : ¬(6 : Nat) = 4)] at hrun
  split at hrun
  next heq => exact Option.noConfusion heq
  next lens heq =>
    injection heq with heq
    subst heq
    simp only [processLoop] at hrun
    rw [if_neg (by decide : ¬(6 : Nat) = 4),
      if_neg (by decide : ¬(6 : Nat) = 4)] at hrun
    split at hrun
    next heq2 => exact Except.noConfusion heq2
    next x curr2 next2 heq2 =>
      injection heq2 with heq2
      injection heq2 with he1 he2
      subst he1
      subst he2
      split at hrun
      next hrange =>
        split at hrun
        next henr => exact Except.noConfusion hrun
        next org henr =>
            injection hrun with hrun
            have hc : count ≤ 128 := by omega
            have ht : ((128 : Int) - (count : Int)).toNat = 128 - count := by
              omega
            refine ⟨hc, org, ?_, ?_⟩
            · rw [← hrun, ht]
            · rw [sizeInAddresses, if_neg (by decide : ¬(6 : Nat) = 4), ht]
      next hrange => exact Except.noConfusion hrun

/-- C3 (amended): the collection loop of main raises, aborting the whole run,
exactly when some record's processing unit raises; per-record failures are not
isolated. -/
theorem c3_unit_failure_aborts_run :
    ∀ (env : Nat → Nat → WhoisResp) (fields : List String)
      (j : Nat) (records : List DelegationRecord),
      collectResults env fields j records = Except.error () ↔
      ∃ i, ∃ h : i < records.length,
        process_ip_range (env (j + i)) fields (records.get ⟨i, h⟩).start
          (records.get ⟨i, h⟩).ip_version (records.get ⟨i, h⟩).unitCount =
          Except.error () := by
  intro env fields j records
  induction records generalizing j with
  | nil =>
    constructor
    · intro h
      exact Except.noConfusion h
    · rintro ⟨i, hi, _⟩
      exact absurd hi (by simp)
  | cons r rs ih =>
    constructor
    · intro h
      simp only [collectResults] at h
      cases hp : process_ip_range (env j) fields r.start r.ip_version
          r.unitCount with
      | error e =>
        cases e
        refine ⟨0, by simp, ?_⟩
        simpa using hp
      | ok bs =>
        rw [hp] at h
        split at h
        next e heq => exact Except.noConfusion heq
        next more heq =>
          split at h
          next e2 heq2 =>
            cases e2
            obtain ⟨i, hi, hproc⟩ := (ih (j + 1)).mp heq2
            refine ⟨i + 1, by simpa using hi, ?_⟩
            have harith : j + (i + 1) = j + 1 + i := by omega
            rw [harith]
            exact hproc
          next more2 heq2 => exact Except.noConfusion h
    · rintro ⟨i, hi, hproc⟩
      simp only [collectResults]
      cases i with
      | zero =>
        have hp : process_ip_range (env j) fields r.start r.ip_version
            r.unitCount = Except.error () := by simpa using hproc
        rw [hp]
      | succ i =>
        cases hp : process_ip_range (env j) fields r.start r.ip_version
            r.unitCount with
        | error e => cases e; rfl
        | ok bs =>
          have hrec : collectResults env fields (j + 1) rs = Except.error () := by
            refine (ih (j + 1)).mpr ⟨i, by simpa using hi, ?_⟩
            have harith : j + 1 + i = j + (i + 1) := by omega
            rw [harith]
            exact hproc
          rw [hrec]

/-- The output fold of prefix_info_list_to_file, started from any accumulator,
adds the spec-side block sizes. -/
theorem total_foldl : ∀ (l : List BlockInfo) (a : Nat),
    l.foldl (fun total b =>
      if b.version = 4 then total + 2 ^ ((32 : Int) - b.prefixLen).toNat
      else total + 2 ^ ((128 : Int) - b.prefixLen).toNat) a
      = a + (l.map sizeInAddresses).sum := by
  intro l
  induction l with
  | nil => intro a; simp
  | cons b rest ih =>
    intro a
    simp only [List.foldl_cons, List.map_cons, List.sum_cons]
    rw [ih, sizeInAddresses]
    by_cases h : b.version = 4
    · rw [if_pos h, if_pos h]
      omega
    · rw [if_neg h, if_neg h]
      omega

/-- C5: the reported total equals the sum over all emitted blocks of
sizeInAddresses, with sizeInAddresses as 2^(maxBits - prefixLength). -/
theorem c5_total_is_size_sum (l : List BlockInfo) :
    totalAddressesCalc l = (l.map sizeInAddresses).sum := by
  rw [totalAddressesCalc, total_foldl]
  omega

/-- C8: the aggregation of totalAddresses is order independent: permuting the
block list leaves the total unchanged. -/
theorem c8_total_permutation_invariant (l1 l2 : List BlockInfo)
    (hperm : l1.Perm l2) :
    totalAddressesCalc l1 = totalAddressesCalc l2 := by
  have e1 : totalAddressesCalc l1 = (l1.map sizeInAddresses).sum := by
    rw [totalAddressesCalc, total_foldl]
    omega
  have e2 : totalAddressesCalc l2 = (l2.map sizeInAddresses).sum := by
    rw [totalAddressesCalc, total_foldl]
    omega
  rw [e1, e2]
  exact (hperm.map sizeInAddresses).sum_eq

/-- The decomposition is defined for every positive input. -/
theorem plen_total : ∀ n, 1 ≤ n → ∃ l, prefix_len_by_num_of_ip n = some l := by
  intro n
  induction n using Nat.strong_induction_on with
  | _ n ih =>
    intro hn
    rw [prefix_len_by_num_of_ip, dif_neg (by omega : ¬n = 0)]
    by_cases hpow : n = 2 ^ Nat.log2 n
    · rw [if_pos hpow]
      exact ⟨_, rfl⟩
    · rw [if_neg hpow]
      have h1 := Nat.log2_self_le (by omega : n ≠ 0)
      have h2 := Nat.two_pow_pos (Nat.log2 n)
      obtain ⟨l, hl⟩ := ih (n - 2 ^ Nat.log2 n) (by omega) (by omega)
      rw [hl]
      exact ⟨_, rfl⟩

/-- C9: for every positive unit count the recursion terminates with a nonempty
list, and when the input is not a power of two the recursive call receives a
strictly smaller positive remainder. -/
theorem c9_recursion_terminates (n : Nat) (hn : 1 ≤ n) :
    (∃ l, prefix_len_by_num_of_ip n = some l ∧ l ≠ []) ∧
    (n ≠ 2 ^ Nat.log2 n →
      1 ≤ n - 2 ^ Nat.log2 n ∧ n - 2 ^ Nat.log2 n < n) := by
  constructor
  · obtain ⟨l, hl⟩ := plen_total n hn
    exact ⟨l, hl, (plen_spec n l hl).2.1⟩
  · intro hne
    have h1 := Nat.log2_self_le (by omega : n ≠ 0)
    have h2 := Nat.two_pow_pos (Nat.log2 n)
    omega

/-- C7: the produced sequence is the exact greedy cover: sizes sum to the unit
count and decrease strictly, no cover by powers of two uses fewer blocks, and
any strictly decreasing cover by powers of two is this one. -/
theorem c7_greedy_minimal_cover (n : Nat) (l : List Int)
    (hl : prefix_len_by_num_of_ip n = some l) :
    (l.map v4Size).sum = n ∧
    List.Chain' (· > ·) (l.map v4Size) ∧
    (∀ exps : List Nat, (exps.map fun k => 2 ^ k).sum = n →
      l.length ≤ exps.length) ∧
    (∀ exps : List Nat, exps.Chain' (· > ·) →
      (exps.map fun k => 2 ^ k).sum = n →
      exps.map (fun k => (2 : Nat) ^ k) = l.map v4Size) := by
  obtain ⟨_, _, _, _, _, hsum⟩ := plen_spec n l hl
  refine ⟨hsum, plen_sizes_decreasing n l hl, ?_, ?_⟩
  · intro exps hx
    have h1 := popcount_cover_le exps
    rw [hx] at h1
    rw [plen_length n l hl]
    exact h1
  · intro exps hc hx
    exact plen_sizes_unique n exps l hc hx hl

theorem lookupField_cons (p : String × Option String)
    (rest : List (String × Option String)) (k : String) :
    lookupField (p :: rest) k =
      if p.1 = k then some p.2 else lookupField rest k := by
  by_cases h : p.1 = k
  · rw [if_pos h, lookupField, List.find?_cons_of_pos _ (by simpa using h)]
    rfl
  · rw [if_neg h, lookupField, List.find?_cons_of_neg _ (by simpa using h)]
    rfl

theorem lookupField_assocSet_self :
    ∀ (org : List (String × Option String)) (k : String) (v : Option String),
      lookupField (assocSet org k v) k = some v := by
  intro org
  induction org with
  | nil =>
    intro k v
    rw [assocSet, lookupField_cons, if_pos rfl]
  | cons p rest ih =>
    intro k v
    rw [assocSet]
    by_cases h : p.1 = k
    · rw [if_pos h, lookupField_cons, if_pos rfl]
    · rw [if_neg h, lookupField_cons, if_neg h]
      exact ih k v

theorem lookupField_assocSet_ne :
    ∀ (org : List (String × Option String)) (k f : String) (v : Option String),
      f ≠ k → lookupField (assocSet org k v) f = lookupField org f := by
  intro org
  induction org with
  | nil =>
    intro k f v hfk
    rw [assocSet, lookupField_cons, if_neg (by simpa using fun h => hfk h.symm)]
  | cons p rest ih =>
    intro k f v hfk
    rw [assocSet]
    by_cases h : p.1 = k
    · rw [if_pos h, lookupField_cons, lookupField_cons,
        if_neg (fun h2 => hfk h2.symm),
        if_neg (fun h2 => hfk (h2.symm.trans h))]
    · rw [if_neg h, lookupField_cons, lookupField_cons]
      by_cases h2 : p.1 = f
      · rw [if_pos h2, if_pos h2]
      · rw [if_neg h2, if_neg h2]
        exact ih k f v hfk

/-- The dict initialisation loop sets every wanted field to None. -/
theorem initOrg_lookup :
    ∀ (fields : List String) (acc : List (String × Option String)) (f : String),
      f ∈ fields ∨ lookupField acc f = some none →
      lookupField (fields.foldl (fun acc2 k => assocSet acc2 k none) acc) f =
        some none := by
  intro fields
  induction fields with
  | nil =>
    intro acc f h
    rcases h with h | h
    · exact absurd h (by simp)
    · exact h
  | cons k rest ih =>
    intro acc f h
    simp only [List.foldl_cons]
    apply ih
    by_cases hkf : k = f
    · subst hkf
      right
      exact lookupField_assocSet_self acc k none
    · rcases h with h | h
      · rcases List.mem_cons.mp h with h | h
        · exact absurd h.symm hkf
        · left; exact h
      · right
        rw [lookupField_assocSet_ne acc k f none (fun h2 => hkf h2.symm)]
        exact h

theorem scanEntry_eq (e : OrgEntry) (fields : List String)
    (org : List (String × Option String)) :
    scanEntry e (fields, org) =
      match fields.find? (fun g => decide (e.key = some g)) with
      | some field =>
          (fields.erase field, assocSet org field (some (e.value.getD unknownStr)))
      | none => (fields, org) := rfl

theorem find?_key_self : ∀ (fields : List String) (f : String), f ∈ fields →
    fields.find? (fun g => decide ((some f : Option String) = some g)) = some f := by
  intro fields
  induction fields with
  | nil => intro f hf; exact absurd hf (by simp)
  | cons g rest ih =>
    intro f hf
    by_cases hgf : f = g
    · subst hgf
      rw [List.find?_cons_of_pos _ (by simp)]
    · rw [List.find?_cons_of_neg _ (by simp [hgf])]
      refine ih f ?_
      rcases List.mem_cons.mp hf with h | h
      · exact absurd h hgf
      · exact h

/-- A field no longer wanted is never assigned again by the entry scan. -/
theorem scanEntries_preserve :
    ∀ (es : List OrgEntry) (fields : List String)
      (org : List (String × Option String)) (f : String),
      f ∉ fields →
      lookupField (scanEntries es (fields, org)).2 f = lookupField org f := by
  intro es
  induction es with
  | nil => intro fields org f hf; rfl
  | cons e es ih =>
    intro fields org f hf
    cases hfind : fields.find? (fun g => decide (e.key = some g)) with
    | none =>
      simp only [scanEntries, scanEntry_eq, hfind]
      exact ih fields org f hf
    | some g =>
      simp only [scanEntries, scanEntry_eq, hfind]
      have hgmem : g ∈ fields := List.mem_of_find?_eq_some hfind
      have hgf : f ≠ g := fun h => hf (h ▸ hgmem)
      have hnf : f ∉ fields.erase g := fun h => hf (List.mem_of_mem_erase h)
      exact (ih (fields.erase g) _ f hnf).trans
        (lookupField_assocSet_ne org g f _ hgf)

/-- The value a wanted field receives is decided by the first entry whose key
equals it; with no such entry the initial value persists. -/
theorem scanEntries_spec :
    ∀ (es : List OrgEntry) (fields : List String)
      (org : List (String × Option String)) (f : String),
      f ∈ fields → fields.Nodup →
      lookupField (scanEntries es (fields, org)).2 f =
        match es.find? (fun e2 => decide (e2.key = some f)) with
        | some e2 => some (some (e2.value.getD unknownStr))
        | none => lookupField org f := by
  intro es
  induction es with
  | nil => intro fields org f hf hnd; rfl
  | cons e es ih =>
    intro fields org f hf hnd
    by_cases hk : e.key = some f
    · have hfind : fields.find? (fun g => decide (e.key = some g)) = some f := by
        rw [hk]
        exact find?_key_self fields f hf
      simp only [scanEntries, scanEntry_eq, hfind]
      rw [List.find?_cons_of_pos _ (by simpa using hk)]
      have hnot : f ∉ fields.erase f :=
        fun h => ((List.Nodup.mem_erase_iff hnd).mp h).1 rfl
      exact (scanEntries_preserve es (fields.erase f) _ f hnot).trans
        (lookupField_assocSet_self org f _)
    · have hrw : (e :: es).find? (fun e2 => decide (e2.key = some f)) =
          es.find? (fun e2 => decide (e2.key = some f)) :=
        List.find?_cons_of_neg _ (by simpa using hk)
      rw [hrw]
      cases hfind : fields.find? (fun g => decide (e.key = some g)) with
      | none =>
        simp only [scanEntries, scanEntry_eq, hfind]
        exact ih fields org f hf hnd
      | some g =>
        have hkey : e.key = some g := by
          simpa using List.find?_some hfind
        have hgf : g ≠ f := fun h => hk (h ▸ hkey)
        simp only [scanEntries, scanEntry_eq, hfind]
        have hf2 : f ∈ fields.erase g :=
          (List.mem_erase_of_ne (fun h => hgf h.symm)).mpr hf
        rw [ih (fields.erase g) (assocSet org g (some (e.value.getD unknownStr)))
          f hf2 (List.Nodup.erase g hnd)]
        cases hes : es.find? (fun e2 => decide (e2.key = some f)) with
        | some e2 => rfl
        | none => exact lookupField_assocSet_ne org g f _ (fun h => hgf h.symm)

theorem scanEntries_append :
    ∀ (a b : List OrgEntry) (st : List String × List (String × Option String)),
      scanEntries (a ++ b) st = scanEntries b (scanEntries a st) := by
  intro a
  induction a with
  | nil => intro b st; rfl
  | cons e a2 ih =>
    intro b st
    simp only [List.cons_append, scanEntries]
    exact ih b _

theorem scanRecords_eq_flatten :
    ∀ (recs : List (List OrgEntry))
      (st : List String × List (String × Option String)),
      scanRecords recs st = scanEntries recs.flatten st := by
  intro recs
  induction recs with
  | nil => intro st; rfl
  | cons r rs ih =>
    intro st
    simp only [scanRecords, List.flatten_cons, scanEntries_append]
    exact ih _

theorem assocSet_keys (k : String) (v : Option String) :
    ∀ (org : List (String × Option String)),
      (assocSet org k v).map Prod.fst =
        if k ∈ org.map Prod.fst then org.map Prod.fst
        else org.map Prod.fst ++ [k] := by
  intro org
  induction org with
  | nil => simp [assocSet]
  | cons p rest ih =>
    rw [assocSet]
    by_cases h : p.1 = k
    · rw [if_pos h,
        if_pos (show k ∈ (p :: rest).map Prod.fst by
          simp only [List.map_cons, List.mem_cons]
          exact Or.inl h.symm)]
      simp [h]
    · rw [if_neg h]
      simp only [List.map_cons, ih]
      by_cases h2 : k ∈ rest.map Prod.fst
      · rw [if_pos h2,
          if_pos (show k ∈ p.1 :: rest.map Prod.fst from
            List.mem_cons_of_mem _ h2)]
      · rw [if_neg h2,
          if_neg (show ¬k ∈ p.1 :: rest.map Prod.fst by
            intro h3
            rcases List.mem_cons.mp h3 with h3 | h3
            · exact h h3.symm
            · exact h2 h3)]
        simp

theorem initOrg_nodup :
    ∀ (fields : List String) (acc : List (String × Option String)),
      (acc.map Prod.fst).Nodup →
      ((fields.foldl (fun a k => assocSet a k none) acc).map Prod.fst).Nodup := by
  intro fields
  induction fields with
  | nil => intro acc h; exact h
  | cons k rest ih =>
    intro acc h
    simp only [List.foldl_cons]
    apply ih
    rw [assocSet_keys]
    by_cases h2 : k ∈ acc.map Prod.fst
    · rw [if_pos h2]
      exact h
    · rw [if_neg h2, List.nodup_append]
      refine ⟨h, List.nodup_singleton k, ?_⟩
      intro a ha hak
      simp only [List.mem_singleton] at hak
      subst hak
      exact h2 ha

theorem initOrg_mem :
    ∀ (fields : List String) (acc : List (String × Option String)) (f : String),
      f ∈ fields ∨ f ∈ acc.map Prod.fst →
      f ∈ (fields.foldl (fun a k => assocSet a k none) acc).map Prod.fst := by
  intro fields
  induction fields with
  | nil =>
    intro acc f h
    rcases h with h | h
    · exact absurd h (by simp)
    · exact h
  | cons k rest ih =>
    intro acc f h
    simp only [List.foldl_cons]
    apply ih
    by_cases hkf : f = k
    · right
      rw [assocSet_keys]
      subst hkf
      by_cases h2 : f ∈ acc.map Prod.fst
      · rw [if_pos h2]
        exact h2
      · rw [if_neg h2]
        exact List.mem_append_right _ (by simp)
    · rcases h with h | h
      · rcases List.mem_cons.mp h with h | h
        · exact absurd h hkf
        · left; exact h
      · right
        rw [assocSet_keys]
        by_cases h2 : k ∈ acc.map Prod.fst
        · rw [if_pos h2]
          exact h
        · rw [if_neg h2]
          exact List.mem_append_left _ h

/-- A successful per-block enrichment gives every wanted field exactly the
value described by enrichmentResult for that block's response. -/
theorem enrich_lookup (resp : WhoisResp) (fields : List String)
    (org : List (String × Option String))
    (henr : enrich resp fields = Except.ok org) :
    ∀ f ∈ fields, lookupField org f = some (enrichmentResult resp f) := by
  intro f hf
  have hfe : ¬fields.isEmpty = true := by
    cases fields with
    | nil => exact absurd hf (by simp)
    | cons g rest => simp
  rw [enrich, if_neg hfe] at henr
  cases resp with
  | transportError =>
    rw [fetch_organization_info] at henr
    injection henr with henr
    rw [← henr]
    exact initOrg_lookup fields [] f (Or.inl hf)
  | notOk =>
    rw [fetch_organization_info] at henr
    injection henr with henr
    rw [← henr]
    exact initOrg_lookup fields [] f (Or.inl hf)
  | httpStatusError =>
    rw [fetch_organization_info] at henr
    exact Except.noConfusion henr
  | ok records =>
    rw [fetch_organization_info] at henr
    injection henr with henr
    rw [← henr, scanRecords_eq_flatten]
    rw [scanEntries_spec records.flatten _ _ f
      (initOrg_mem fields [] f (Or.inl hf)) (initOrg_nodup fields [] (by simp))]
    simp only [enrichmentResult]
    cases hfind : records.flatten.find? (fun e2 => decide (e2.key = some f)) with
    | some e2 => rfl
    | none => exact initOrg_lookup fields [] f (Or.inl hf)

/-- C4 (amended): every emitted block carries each wanted field with exactly
the value the response determines: None when the field is not found there,
including when the client call failed recoverably, and otherwise the first
matching entry's value, with Unknown substituted exactly when that entry lacks
a value member; and with wanted fields a per-block enrichment raises exactly on
an HTTP error status response, which fails the record's unit. -/
theorem c4_unfound_fields_are_none
    (env : Nat → WhoisResp) (fields : List String)
    (start ip_version count : Nat) (bs : List BlockInfo)
    (hrun : process_ip_range env fields start ip_version count = Except.ok bs) :
    (∀ b ∈ bs, ∃ j, ∀ f ∈ fields,
      lookupField b.orgInfo f = some (enrichmentResult (env j) f)) ∧
    (∀ resp : WhoisResp, ¬fields.isEmpty = true →
      (enrich resp fields = Except.error () ↔ resp = WhoisResp.httpStatusError)) ∧
    process_ip_range (fun _ => WhoisResp.httpStatusError) [netnameStr] 0 4 1 =
      Except.error () := by
  refine ⟨?_, ?_, ?_⟩
  · rw [process_ip_range] at hrun
    split at hrun
    next heq => exact Except.noConfusion hrun
    next lens heq =>
      intro b hb
      obtain ⟨j, hj⟩ :=
        processLoop_org env fields ip_version lens 0 start start bs hrun b hb
      exact ⟨j, enrich_lookup (env j) fields b.orgInfo hj⟩
  · intro resp hne
    constructor
    · intro h
      cases resp with
      | httpStatusError => rfl
      | transportError =>
        rw [enrich, if_neg hne, fetch_organization_info] at h
        exact Except.noConfusion h
      | notOk =>
        rw [enrich, if_neg hne, fetch_organization_info] at h
        exact Except.noConfusion h
      | ok records =>
        rw [enrich, if_neg hne, fetch_organization_info] at h
        exact Except.noConfusion h
    · intro h
      subst h
      rw [enrich, if_neg hne]
      rfl
  · rw [process_ip_range, if_pos rfl, plen_one]
    decide

/-- C10: each wanted field is assigned at most once: the first entry, in record
then entry order, whose key equals the field determines its value; the field is
removed from the wanted list on the first match, so later entries with the same
key never overwrite it. -/
theorem c10_first_match_assigns
    (records : List (List OrgEntry)) (org_info : List (String × Option String))
    (f : String) (res : List (String × Option String))
    (hnd : (org_info.map Prod.fst).Nodup)
    (hf : f ∈ org_info.map Prod.fst)
    (hres : fetch_organization_info (WhoisResp.ok records) org_info =
      Except.ok res) :
    lookupField res f =
      match records.flatten.find? (fun e => decide (e.key = some f)) with
      | some e => some (some (e.value.getD unknownStr))
      | none => lookupField org_info f := by
  rw [fetch_organization_info] at hres
  injection hres with hres
  rw [← hres, scanRecords_eq_flatten]
  exact scanEntries_spec records.flatten (org_info.map Prod.fst) org_info f hf hnd

/-- C1 counterexample: with the unaligned start address 1 and unit count 3 the
two emitted blocks leave a gap: the second does not begin where the first
ends. -/
theorem c1_counterexample :
    process_ip_range (fun _ => WhoisResp.notOk) [] 1 4 3 =
      Except.ok [⟨0, 31, 4, []⟩, ⟨3, 32, 4, []⟩] ∧
    ¬ List.Chain' (fun b b2 => b2.network = b.network + sizeInAddresses b)
      [(⟨0, 31, 4, []⟩ : BlockInfo), ⟨3, 32, 4, []⟩] := by
  constructor
  · rw [process_ip_range, if_pos rfl, plen_three]
    decide
  · intro h
    rw [List.chain'_cons] at h
    have h1 := h.1
    rw [sizeInAddresses] at h1
    simp at h1

theorem c1_aligned_decomposition_witness :
    (2 ^ Nat.log2 3 ∣ 0) ∧
    process_ip_range (fun _ => WhoisResp.notOk) [] 0 4 3 =
      Except.ok [⟨0, 31, 4, []⟩, ⟨2, 32, 4, []⟩] ∧
    ((([⟨0, 31, 4, []⟩, (⟨2, 32, 4, []⟩ : BlockInfo)]).map sizeInAddresses).sum = 3 ∧
     ([⟨0, 31, 4, []⟩, (⟨2, 32, 4, []⟩ : BlockInfo)] : List BlockInfo) ≠ [] ∧
     ([⟨0, 31, 4, []⟩, (⟨2, 32, 4, []⟩ : BlockInfo)] : List BlockInfo).head?.map
       (fun b => b.network) = some 0 ∧
     List.Chain' (fun b b2 => b2.network = b.network + sizeInAddresses b)
       [⟨0, 31, 4, []⟩, (⟨2, 32, 4, []⟩ : BlockInfo)] ∧
     List.Chain' (fun b b2 => b.network < b2.network)
       [⟨0, 31, 4, []⟩, (⟨2, 32, 4, []⟩ : BlockInfo)]) := by
  have hrun : process_ip_range (fun _ => WhoisResp.notOk) [] 0 4 3 =
      Except.ok [⟨0, 31, 4, []⟩, ⟨2, 32, 4, []⟩] := by
    rw [process_ip_range, if_pos rfl, plen_three]
    decide
  exact ⟨dvd_zero _, hrun,
    c1_aligned_decomposition (fun _ => WhoisResp.notOk) [] 0 3 _ (dvd_zero _) hrun⟩

theorem c2_nonstrict_network_witness :
    prefix_len_by_num_of_ip 1 = some [32] ∧
    process_ip_range (fun _ => WhoisResp.notOk) [] 0 4 1 =
      Except.ok [⟨0, 32, 4, []⟩] ∧
    ((([⟨0, 32, 4, []⟩] : List BlockInfo).map (fun b => b.network) =
        alignedCursorList 0 [32] ∧
      ∀ i, i < ([32] : List Int).length →
        (alignedCursorList 0 [32]).getD i 0 =
          v4Cursor 0 [32] i - v4Cursor 0 [32] i % v4Size (([32] : List Int).getD i 0)) ∧
     ∃ bs2, process_ip_range (fun _ => WhoisResp.notOk) [] 1 4 2 = Except.ok bs2 ∧
       bs2.map (fun b => b.network) ≠ [v4Cursor 1 [31] 0]) := by
  have hrun : process_ip_range (fun _ => WhoisResp.notOk) [] 0 4 1 =
      Except.ok [⟨0, 32, 4, []⟩] := by
    rw [process_ip_range, if_pos rfl, plen_one]
    decide
  exact ⟨plen_one, hrun,
    c2_nonstrict_network (fun _ => WhoisResp.notOk) [] 0 1 [32] _ plen_one hrun⟩

/-- C3 counterexample: a run whose first record has unit count zero raises and
aborts the whole collection, although its sibling record alone processes
successfully: per-record failures are not isolated. -/
theorem c3_counterexample :
    collectResults (fun _ _ => WhoisResp.notOk) [] 0
      [⟨0, 4, 0⟩, ⟨0, 4, 1⟩] = Except.error () ∧
    process_ip_range (fun _ => WhoisResp.notOk) [] 0 4 1 =
      Except.ok [⟨0, 32, 4, []⟩] := by
  constructor
  · simp only [collectResults]
    rw [process_ip_range, if_pos rfl, plen_zero]
  · rw [process_ip_range, if_pos rfl, plen_one]
    decide

/-- C4 counterexample: with the enrichment client unreachable the block is
emitted with the wanted field equal to None, not to the string Unknown. -/
theorem c4_counterexample :
    process_ip_range (fun _ => WhoisResp.transportError) [netnameStr] 0 4 1 =
      Except.ok [⟨0, 32, 4, [(netnameStr, none)]⟩] ∧
    lookupField [(netnameStr, none)] netnameStr ≠ some (some unknownStr) := by
  constructor
  · rw [process_ip_range, if_pos rfl, plen_one]
    decide
  · decide

theorem c4_unfound_fields_are_none_witness :
    process_ip_range (fun _ => WhoisResp.transportError) [netnameStr] 0 4 1 =
      Except.ok [⟨0, 32, 4, [(netnameStr, none)]⟩] ∧
    ((∀ b ∈ ([⟨0, 32, 4, [(netnameStr, none)]⟩] : List BlockInfo), ∃ j : Nat,
        ∀ f ∈ [netnameStr],
          lookupField b.orgInfo f =
            some (enrichmentResult WhoisResp.transportError f)) ∧
     (∀ resp : WhoisResp, ¬([netnameStr] : List String).isEmpty = true →
        (enrich resp [netnameStr] = Except.error () ↔
          resp = WhoisResp.httpStatusError)) ∧
     process_ip_range (fun _ => WhoisResp.httpStatusError) [netnameStr] 0 4 1 =
       Except.error ()) := by
  have hrun : process_ip_range (fun _ => WhoisResp.transportError) [netnameStr]
      0 4 1 = Except.ok [⟨0, 32, 4, [(netnameStr, none)]⟩] := by
    rw [process_ip_range, if_pos rfl, plen_one]
    decide
  exact ⟨hrun, c4_unfound_fields_are_none (fun _ => WhoisResp.transportError)
    [netnameStr] 0 4 1 _ hrun⟩

theorem c6_v6_single_block_witness :
    process_ip_range (fun _ => WhoisResp.notOk) [] (0x20010db8 * 2 ^ 96) 6 32 =
      Except.ok [⟨0x20010db8 * 2 ^ 96, 32, 6, []⟩] ∧
    ((32 : Nat) ≤ 128 ∧
     ∃ org, ([⟨0x20010db8 * 2 ^ 96, 32, 6, []⟩] : List BlockInfo) =
       [⟨0x20010db8 * 2 ^ 96 - 0x20010db8 * 2 ^ 96 % 2 ^ (128 - 32),
         (32 : Int), 6, org⟩] ∧
       sizeInAddresses ⟨0x20010db8 * 2 ^ 96 - 0x20010db8 * 2 ^ 96 % 2 ^ (128 - 32),
         (32 : Int), 6, org⟩ = 2 ^ (128 - 32)) := by
  have hrun : process_ip_range (fun _ => WhoisResp.notOk) []
      (0x20010db8 * 2 ^ 96) 6 32 =
      Except.ok [⟨0x20010db8 * 2 ^ 96, 32, 6, []⟩] := by
    decide
  exact ⟨hrun, c6_v6_single_block (fun _ => WhoisResp.notOk) []
    (0x20010db8 * 2 ^ 96) 32 _ hrun⟩

theorem c7_greedy_minimal_cover_witness :
    prefix_len_by_num_of_ip 3 = some [31, 32] ∧
    ((([31, 32] : List Int).map v4Size).sum = 3 ∧
     List.Chain' (· > ·) (([31, 32] : List Int).map v4Size) ∧
     (∀ exps : List Nat, (exps.map fun k => 2 ^ k).sum = 3 →
       ([31, 32] : List Int).length ≤ exps.length) ∧
     (∀ exps : List Nat, exps.Chain' (· > ·) →
       (exps.map fun k => 2 ^ k).sum = 3 →
       exps.map (fun k => (2 : Nat) ^ k) = ([31, 32] : List Int).map v4Size)) :=
  ⟨plen_three, c7_greedy_minimal_cover 3 [31, 32] plen_three⟩

theorem c8_total_permutation_invariant_witness :
    ([⟨0, 24, 4, []⟩, (⟨0, 32, 6, []⟩ : BlockInfo)]).Perm
      [⟨0, 32, 6, []⟩, (⟨0, 24, 4, []⟩ : BlockInfo)] ∧
    totalAddressesCalc [⟨0, 24, 4, []⟩, (⟨0, 32, 6, []⟩ : BlockInfo)] =
      totalAddressesCalc [⟨0, 32, 6, []⟩, (⟨0, 24, 4, []⟩ : BlockInfo)] := by
  have hperm : ([⟨0, 24, 4, []⟩, (⟨0, 32, 6, []⟩ : BlockInfo)]).Perm
      [⟨0, 32, 6, []⟩, (⟨0, 24, 4, []⟩ : BlockInfo)] :=
    List.Perm.swap _ _ _
  exact ⟨hperm, c8_total_permutation_invariant _ _ hperm⟩

theorem c9_recursion_terminates_witness :
    (1 ≤ 3) ∧
    ((∃ l, prefix_len_by_num_of_ip 3 = some l ∧ l ≠ []) ∧
     (3 ≠ 2 ^ Nat.log2 3 →
       1 ≤ 3 - 2 ^ Nat.log2 3 ∧ 3 - 2 ^ Nat.log2 3 < 3)) :=
  ⟨by decide, c9_recursion_terminates 3 (by decide)⟩

theorem c10_first_match_assigns_witness :
    ((([(netnameStr, none)] : List (String × Option String)).map Prod.fst).Nodup ∧
     netnameStr ∈ ([(netnameStr, none)] : List (String × Option String)).map
       Prod.fst ∧
     fetch_organization_info
       (WhoisResp.ok [[⟨some netnameStr, some valueAStr⟩,
         ⟨some netnameStr, some valueBStr⟩]])
       [(netnameStr, none)] = Except.ok [(netnameStr, some valueAStr)]) ∧
    lookupField [(netnameStr, some valueAStr)] netnameStr =
      match ([[⟨some netnameStr, some valueAStr⟩,
          ⟨some netnameStr, some valueBStr⟩]] : List (List OrgEntry)).flatten.find?
          (fun e => decide (e.key = some netnameStr)) with
      | some e => some (some (e.value.getD unknownStr))
      | none => lookupField [(netnameStr, none)] netnameStr := by
  have hnd : (([(netnameStr, none)] : List (String × Option String)).map
      Prod.fst).Nodup := by simp
  have hf : netnameStr ∈ ([(netnameStr, none)] :
      List (String × Option String)).map Prod.fst := by simp
  have hres : fetch_organization_info
      (WhoisResp.ok [[⟨some netnameStr, some valueAStr⟩,
        ⟨some netnameStr, some valueBStr⟩]])
      [(netnameStr, none)] = Except.ok [(netnameStr, some valueAStr)] := by
    decide
  exact ⟨⟨hnd, hf, hres⟩,
    c10_first_match_assigns _ _ netnameStr _ hnd hf hres⟩
